import Mathlib

/-!
Verification of the fuzzy-match core of `TerminalApp::FilteredCommand`
(`src/cascadia/TerminalApp/FilteredCommand.cpp`).

The code-side definitions below are shallow embeddings of the C++ source:
strings (`winrt::hstring`) become `List Char`, `std::towlower` becomes
`Char.toLower`, and the imperative scanning loops of
`_computeHighlightedName` become structural recursions carrying the same
mutable state (`segments`, `isProcessingMatchedSegment`,
`nextOffsetToReport`, `currentOffset`).
-/

/-- Embeds `HighlightedTextSegment`: a run of the command name together with
its matched/unmatched flag. -/
structure HighlightedTextSegment where
  textSegment : List Char
  isHighlighted : Bool
deriving DecidableEq, Repr

/-- The local mutable state of `FilteredCommand::_computeHighlightedName`
(lines 75-79): the accumulated segments, whether the characters since
`nextOffsetToReport` were matched, and the two offsets into the name. -/
structure SegState where
  segments : List HighlightedTextSegment
  isProcessingMatchedSegment : Bool
  nextOffsetToReport : Nat
  currentOffset : Nat
deriving Repr

/-- The slice `hstring{ commandName.data() + start, stop - start }` used when
a segment is emitted. -/
def nameSlice (name : List Char) (start stop : Nat) : List Char :=
  (name.drop start).take (stop - start)

/-- Embeds lines 97-111 of `_computeHighlightedName`: when the classification
of the current character differs from the segment being built, conclude the
segment (skipping it when empty) and flip `isProcessingMatchedSegment`. -/
def closeBoundary (name : List Char) (isCurrentCharMatched : Bool) (st : SegState) : SegState :=
  if st.isProcessingMatchedSegment ≠ isCurrentCharMatched then
    if 0 < st.currentOffset - st.nextOffsetToReport then
      { segments := st.segments ++
        [⟨nameSlice name st.nextOffsetToReport st.currentOffset, st.isProcessingMatchedSegment⟩],
        isProcessingMatchedSegment := isCurrentCharMatched,
        nextOffsetToReport := st.currentOffset,
        currentOffset := st.currentOffset }
    else
      { st with isProcessingMatchedSegment := isCurrentCharMatched }
  else st

/-- One iteration of the inner `while (true)` loop body for a character that
has just been classified: run the boundary logic, then `currentOffset++`
(lines 97-113). -/
def stepState (name : List Char) (isCurrentCharMatched : Bool) (st : SegState) : SegState :=
  let st1 := closeBoundary name isCurrentCharMatched st
  { st1 with currentOffset := st1.currentOffset + 1 }

/-- Embeds the inner `while (true)` loop of `_computeHighlightedName`
(lines 84-120) for a single (already lowercased) filter character.  The
first argument list is the suffix of the name from `currentOffset`; the
`[]` case is the exhaustion check `currentOffset == commandName.size()`
(line 86), signalled by `none`.  On a case-insensitive match the loop breaks
(line 118) returning the updated state. -/
def scanChar (name : List Char) (lowerSearchChar : Char) :
    List Char → SegState → Option SegState
  | [], _ => none
  | ch :: rest, st =>
    if ch.toLower = lowerSearchChar then some (stepState name true st)
    else scanChar name lowerSearchChar rest (stepState name false st)

/-- Embeds the outer `for (const auto searchChar : _Filter)` loop
(lines 81-121): scan the name for each filter character in turn; `none`
propagates the exhaustion early-return of lines 86-94. -/
def segmentLoop (name : List Char) : List Char → SegState → Option SegState
  | [], st => some st
  | searchChar :: restFilter, st =>
    match scanChar name searchChar.toLower (name.drop st.currentOffset) st with
    | none => none
    | some st' => segmentLoop name restFilter st'

/-- Embeds lines 123-147 of `_computeHighlightedName`: close a pending
matched segment, then emit one final unmatched segment covering the
remaining characters (each only when non-empty). -/
def finalizeSegments (name : List Char) (st : SegState) : List HighlightedTextSegment :=
  let st1 :=
    if st.isProcessingMatchedSegment then
      if 0 < st.currentOffset - st.nextOffsetToReport then
        { st with
          segments := st.segments ++
            [⟨nameSlice name st.nextOffsetToReport st.currentOffset, true⟩],
          nextOffsetToReport := st.currentOffset }
      else st
    else st
  if 0 < name.length - st1.nextOffsetToReport then
    st1.segments ++ [⟨nameSlice name st1.nextOffsetToReport name.length, false⟩]
  else st1.segments

/-- Embeds `FilteredCommand::_computeHighlightedName` (lines 73-148) as a
pure function of the command name and the filter.  The `none` branch is the
early return of lines 86-94: the entire name as one unmatched segment. -/
def computeHighlightedName (name filter : List Char) : List HighlightedTextSegment :=
  match segmentLoop name filter ⟨[], false, 0, 0⟩ with
  | none => [⟨name, false⟩]
  | some st => finalizeSegments name st

/-- Embeds the loop of `FilteredCommand::_computeWeight` (lines 191-212);
the `Bool` argument is `isNextSegmentWordBeginning`.  The update after each
segment mirrors `segmentSize > 0 && segmentText[segmentSize - 1] == L' '`
(line 211). -/
def computeWeightFrom : Bool → List HighlightedTextSegment → Nat
  | _, [] => 0
  | isNextSegmentWordBeginning, segment :: rest =>
    let segmentSize := segment.textSegment.length
    let fromThisSegment : Nat :=
      if segment.isHighlighted then
        (if segmentSize ≤ 1 then segmentSize else 1 + 2 * (segmentSize - 1)) +
          (if isNextSegmentWordBeginning then 1 else 0)
      else 0
    fromThisSegment +
      computeWeightFrom
        (decide (0 < segmentSize) && (segment.textSegment.getD (segmentSize - 1) 'a' == ' '))
        rest

/-- Embeds `FilteredCommand::_computeWeight` (lines 189-215):
`isNextSegmentWordBeginning` starts out `true`. -/
def computeWeight (segments : List HighlightedTextSegment) : Nat :=
  computeWeightFrom true segments

/-- Embeds the observable state of a `FilteredCommand` view-model record:
the backing command's name, the current filter, and the two derived
fields. -/
structure FilteredCommand where
  commandName : List Char
  filter : List Char
  highlightedName : List HighlightedTextSegment
  weight : Nat
deriving DecidableEq, Repr

/-- Embeds the constructor `FilteredCommand::FilteredCommand`
(lines 24-40): `_Filter = L""`, `_Weight = 0`, then
`_HighlightedName = _computeHighlightedName()`. -/
def FilteredCommand.construct (commandName : List Char) : FilteredCommand :=
  { commandName := commandName,
    filter := [],
    highlightedName := computeHighlightedName commandName [],
    weight := 0 }

/-- Embeds `FilteredCommand::UpdateFilter` (lines 42-52): when the filter
changed, store it, then recompute `HighlightedName` and `Weight` in that
order. -/
def FilteredCommand.UpdateFilter (fc : FilteredCommand) (filter : List Char) : FilteredCommand :=
  if filter ≠ fc.filter then
    let withFilter := { fc with filter := filter }
    let withHighlighted :=
      { withFilter with
        highlightedName := computeHighlightedName withFilter.commandName withFilter.filter }
    { withHighlighted with weight := computeWeight withHighlighted.highlightedName }
  else fc

/-- Embeds the `PropertyChanged` handler installed by the constructor
(lines 32-39): when the backing command's name changes, recompute
`HighlightedName` and then `Weight` with the current filter. -/
def FilteredCommand.onNameChanged (fc : FilteredCommand) (newName : List Char) : FilteredCommand :=
  let withName := { fc with commandName := newName }
  let withHighlighted :=
    { withName with
      highlightedName := computeHighlightedName withName.commandName withName.filter }
  { withHighlighted with weight := computeWeight withHighlighted.highlightedName }

/-- The consistency invariant of the spec: the derived fields agree with the
current `(name, filter)` pair. -/
def FilteredCommand.Consistent (fc : FilteredCommand) : Prop :=
  fc.highlightedName = computeHighlightedName fc.commandName fc.filter ∧
    fc.weight = computeWeight fc.highlightedName

/-- Embeds `firstName.compare(secondName) < 0` on `std::wstring_view`
(line 234): lexicographic comparison by code unit, a proper prefix ordered
before its extensions. -/
def lexLt : List Char → List Char → Bool
  | _, [] => false
  | [], _ :: _ => true
  | a :: as, b :: bs => if a < b then true else if b < a then false else lexLt as bs

/-- Embeds `FilteredCommand::Compare` (lines 225-238): order by weight
descending, break ties by name ascending. -/
def FilteredCommand.Compare (first second : FilteredCommand) : Bool :=
  if first.weight = second.weight then lexLt first.commandName second.commandName
  else decide (second.weight < first.weight)

/-- Modelled from the spec: the greedy left-to-right case-insensitive
assignment of filter characters to name characters ("Walk the filter
characters in order; maintain a cursor into `name` that only moves
forward").  For each name character in turn it records whether that
character consumed the current filter character; `none` means the name was
exhausted with filter characters left over. -/
def greedyMask : List Char → List Char → Option (List Bool)
  | rest, [] => some (rest.map fun _ => false)
  | [], _ :: _ => none
  | ch :: rest, searchChar :: restFilter =>
    if ch.toLower = searchChar.toLower then
      (greedyMask rest restFilter).map fun mask => true :: mask
    else
      (greedyMask rest (searchChar :: restFilter)).map fun mask => false :: mask

/-- Modelled from the spec: prepend one classified character to a run-length
grouping, merging it into the first group when the flags agree. -/
def consRun (ch : Char) (flag : Bool) : List HighlightedTextSegment → List HighlightedTextSegment
  | [] => [⟨[ch], flag⟩]
  | seg :: segs =>
    if seg.isHighlighted = flag then ⟨ch :: seg.textSegment, flag⟩ :: segs
    else ⟨[ch], flag⟩ :: seg :: segs

/-- Modelled from the spec: group a classified character sequence into
maximal runs of equal classification ("contiguous runs of the same
classification are coalesced into one segment"). -/
def groupRuns : List (Char × Bool) → List HighlightedTextSegment
  | [] => []
  | (ch, flag) :: rest => consRun ch flag (groupRuns rest)

/-- Proof-side abstraction of the in-progress run of the scanning state:
prepend a pending run of characters to a grouping, merging with the first
group when the flags agree. -/
def mergeRun (pending : List Char) (flag : Bool) (segs : List HighlightedTextSegment) :
    List HighlightedTextSegment :=
  if pending = [] then segs
  else
    match segs with
    | [] => [⟨pending, flag⟩]
    | seg :: rest =>
      if seg.isHighlighted = flag then ⟨pending ++ seg.textSegment, flag⟩ :: rest
      else ⟨pending, flag⟩ :: seg :: rest

/-- Modelled from the spec: the word-start flags of a segment sequence,
"true iff the current segment is non-empty and its last character is a
space", starting with `true` for the first segment. -/
def atWordStartFlags (segments : List HighlightedTextSegment) : List Bool :=
  true :: segments.map fun s => decide (s.textSegment ≠ []) && decide (s.textSegment.getLast? = some ' ')

/-- Modelled from the spec: the contribution of one segment to the weight,
given whether it starts at a word start. -/
def segmentScore (s : HighlightedTextSegment) (atWordStart : Bool) : Nat :=
  if s.isHighlighted then
    (if s.textSegment.length ≤ 1 then s.textSegment.length
     else 1 + 2 * (s.textSegment.length - 1)) +
      (if atWordStart then 1 else 0)
  else 0

/-- Modelled from the spec: the weight is the sum over segments, in order,
of `segmentScore` at the segment's word-start flag. -/
def weightSpec (segments : List HighlightedTextSegment) : Nat :=
  ((segments.zip (atWordStartFlags segments)).map fun p => segmentScore p.1 p.2).sum

/-! ### Basic facts about slices and offsets -/

lemma nameSlice_zero_length (name : List Char) : nameSlice name 0 name.length = name := by
  simp [nameSlice]

lemma nameSlice_stop_le {name : List Char} {next cur : Nat} (h : cur ≤ next) :
    nameSlice name next cur = [] := by
  unfold nameSlice
  have : cur - next = 0 := by omega
  rw [this, List.take_zero]

lemma nameSlice_to_length (name : List Char) (k : Nat) :
    nameSlice name k name.length = name.drop k := by
  unfold nameSlice
  apply List.take_of_length_le
  rw [List.length_drop]

lemma drop_cons_succ {name rest : List Char} {ch : Char} {cur : Nat}
    (h : name.drop cur = ch :: rest) : name.drop (cur + 1) = rest := by
  have h2 := List.drop_drop 1 cur name
  rw [h] at h2
  simpa using h2.symm

lemma lt_length_of_drop_cons {name rest : List Char} {ch : Char} {cur : Nat}
    (h : name.drop cur = ch :: rest) : cur < name.length := by
  by_contra hle
  push_neg at hle
  rw [List.drop_eq_nil_iff.mpr hle] at h
  exact List.noConfusion h

lemma getElem?_of_drop_cons {name rest : List Char} {ch : Char} {cur : Nat}
    (h : name.drop cur = ch :: rest) : name[cur]? = some ch := by
  have h1 := List.getElem?_drop name cur 0
  rw [h] at h1
  simpa using h1.symm

lemma nameSlice_snoc {name rest : List Char} {ch : Char} {next cur : Nat}
    (h1 : next ≤ cur) (h2 : name.drop cur = ch :: rest) :
    nameSlice name next (cur + 1) = nameSlice name next cur ++ [ch] := by
  unfold nameSlice
  have hc : cur + 1 - next = (cur - next) + 1 := by omega
  rw [hc, List.take_succ]
  congr 1
  rw [List.getElem?_drop]
  have hn : next + (cur - next) = cur := by omega
  rw [hn, getElem?_of_drop_cons h2]
  rfl

lemma nameSlice_one {name rest : List Char} {ch : Char} {cur : Nat}
    (h : name.drop cur = ch :: rest) : nameSlice name cur (cur + 1) = [ch] := by
  unfold nameSlice
  rw [h]
  simp

lemma drop_eq_slice_append {name : List Char} {next cur : Nat}
    (h1 : next ≤ cur) :
    name.drop next = nameSlice name next cur ++ name.drop cur := by
  unfold nameSlice
  conv_lhs => rw [← List.take_append_drop (cur - next) (name.drop next)]
  congr 1
  rw [List.drop_drop]
  congr 1
  omega

lemma nameSlice_length {name : List Char} {next cur : Nat}
    (h1 : next ≤ cur) (h2 : cur ≤ name.length) :
    (nameSlice name next cur).length = cur - next := by
  unfold nameSlice
  rw [List.length_take, List.length_drop]
  omega

lemma nameSlice_ne_nil {name : List Char} {next cur : Nat}
    (h1 : next ≤ cur) (h2 : cur ≤ name.length) (hpos : 0 < cur - next) :
    nameSlice name next cur ≠ [] := by
  intro hne
  have : (nameSlice name next cur).length = cur - next := nameSlice_length h1 h2
  rw [hne] at this
  simp at this
  omega

/-! ### Shapes taken by one scanning step -/

lemma stepState_isProcessing (name : List Char) (b : Bool) (st : SegState) :
    (stepState name b st).isProcessingMatchedSegment = b := by
  unfold stepState closeBoundary
  by_cases h : st.isProcessingMatchedSegment = b
  · simp [h]
  · simp only [ne_eq, h, not_false_iff, if_true]
    split <;> rfl

lemma stepState_currentOffset (name : List Char) (b : Bool) (st : SegState) :
    (stepState name b st).currentOffset = st.currentOffset + 1 := by
  unfold stepState closeBoundary
  by_cases h : st.isProcessingMatchedSegment = b
  · simp [h]
  · simp only [ne_eq, h, not_false_iff, if_true]
    split <;> rfl

lemma stepState_same {name : List Char} {b : Bool} {st : SegState}
    (h : st.isProcessingMatchedSegment = b) :
    stepState name b st = { st with currentOffset := st.currentOffset + 1 } := by
  unfold stepState closeBoundary
  simp [h]

lemma stepState_flip_pos {name : List Char} {b : Bool} {st : SegState}
    (h : st.isProcessingMatchedSegment ≠ b)
    (hpos : 0 < st.currentOffset - st.nextOffsetToReport) :
    stepState name b st =
      ⟨st.segments ++
        [⟨nameSlice name st.nextOffsetToReport st.currentOffset, st.isProcessingMatchedSegment⟩],
       b, st.currentOffset, st.currentOffset + 1⟩ := by
  unfold stepState closeBoundary
  simp [h, hpos]

lemma stepState_flip_zero {name : List Char} {b : Bool} {st : SegState}
    (h : st.isProcessingMatchedSegment ≠ b)
    (hz : ¬ 0 < st.currentOffset - st.nextOffsetToReport) :
    stepState name b st =
      { st with isProcessingMatchedSegment := b, currentOffset := st.currentOffset + 1 } := by
  unfold stepState closeBoundary
  simp [h, hz]

lemma stepState_nextOffset_le (name : List Char) (b : Bool) (st : SegState)
    (h : st.nextOffsetToReport ≤ st.currentOffset) :
    (stepState name b st).nextOffsetToReport ≤ (stepState name b st).currentOffset := by
  by_cases hb : st.isProcessingMatchedSegment = b
  · rw [stepState_same hb]
    show st.nextOffsetToReport ≤ st.currentOffset + 1
    omega
  · by_cases hp : 0 < st.currentOffset - st.nextOffsetToReport
    · rw [stepState_flip_pos hb hp]
      show st.currentOffset ≤ st.currentOffset + 1
      omega
    · rw [stepState_flip_zero hb hp]
      show st.nextOffsetToReport ≤ st.currentOffset + 1
      omega

/-! ### Facts about run grouping -/

lemma mergeRun_nil_pending (flag : Bool) (segs : List HighlightedTextSegment) :
    mergeRun [] flag segs = segs := by
  simp [mergeRun]

lemma mergeRun_single (ch : Char) (flag : Bool) (segs : List HighlightedTextSegment) :
    mergeRun [ch] flag segs = consRun ch flag segs := by
  cases segs with
  | nil => simp [mergeRun, consRun]
  | cons seg rest =>
    by_cases hf : seg.isHighlighted = flag <;> simp [mergeRun, consRun, hf]

lemma mergeRun_consRun_same (pending : List Char) (ch : Char) (flag : Bool)
    (segs : List HighlightedTextSegment) :
    mergeRun pending flag (consRun ch flag segs) = mergeRun (pending ++ [ch]) flag segs := by
  cases hp : pending with
  | nil => simp [mergeRun_nil_pending, mergeRun_single]
  | cons p ps =>
    cases segs with
    | nil => simp [mergeRun, consRun]
    | cons seg rest =>
      by_cases hf : seg.isHighlighted = flag <;>
        simp [mergeRun, consRun, hf]

lemma mergeRun_consRun_flip (pending : List Char) (ch : Char) (flag flag' : Bool)
    (hp : pending ≠ []) (hf : flag' ≠ flag) (segs : List HighlightedTextSegment) :
    mergeRun pending flag' (consRun ch flag segs) =
      ⟨pending, flag'⟩ :: consRun ch flag segs := by
  have hfn : ¬ (flag = flag') := fun h => hf h.symm
  cases segs with
  | nil => simp [mergeRun, consRun, hp, hfn]
  | cons seg rest =>
    by_cases hs : seg.isHighlighted = flag <;> simp [mergeRun, consRun, hp, hfn, hs]

lemma consRun_mem {ch : Char} {flag : Bool} {segs : List HighlightedTextSegment} {seg}
    (h : seg ∈ consRun ch flag segs) :
    seg = ⟨[ch], flag⟩ ∨ seg ∈ segs ∨
      ∃ s ∈ segs, seg = ⟨ch :: s.textSegment, flag⟩ := by
  cases segs with
  | nil =>
    simp [consRun] at h
    exact Or.inl h
  | cons s rest =>
    by_cases hf : s.isHighlighted = flag
    · simp [consRun, hf] at h
      rcases h with h | h
      · exact Or.inr (Or.inr ⟨s, by simp, h⟩)
      · exact Or.inr (Or.inl (by simp [h]))
    · simp [consRun, hf] at h
      rcases h with h | h | h
      · exact Or.inl h
      · exact Or.inr (Or.inl (by simp [h]))
      · exact Or.inr (Or.inl (by simp [h]))

lemma groupRuns_textSegment_ne_nil {l : List (Char × Bool)} :
    ∀ seg ∈ groupRuns l, seg.textSegment ≠ [] := by
  induction l with
  | nil => intro seg h; simp [groupRuns] at h
  | cons p rest ih =>
    obtain ⟨ch, flag⟩ := p
    intro seg h
    rcases consRun_mem h with h1 | h1 | ⟨s, _, h1⟩
    · simp [h1]
    · exact ih seg h1
    · simp [h1]

lemma groupRuns_flatten (l : List (Char × Bool)) :
    ((groupRuns l).map fun seg => seg.textSegment).flatten = l.map Prod.fst := by
  induction l with
  | nil => rfl
  | cons p rest ih =>
    obtain ⟨ch, flag⟩ := p
    show ((consRun ch flag (groupRuns rest)).map fun seg => seg.textSegment).flatten =
      ch :: rest.map Prod.fst
    rw [← ih]
    cases hg : groupRuns rest with
    | nil => simp [consRun]
    | cons seg segs =>
      by_cases hf : seg.isHighlighted = flag <;> simp [consRun, hf]

lemma groupRuns_const_false (l : List Char) :
    groupRuns (l.zip (l.map fun _ => false)) =
      if l = [] then [] else [⟨l, false⟩] := by
  induction l with
  | nil => rfl
  | cons ch rest ih =>
    show consRun ch false (groupRuns (rest.zip (rest.map fun _ => false))) = _
    rw [ih]
    cases rest with
    | nil => simp [consRun]
    | cons c2 r2 => simp [consRun]

/-! ### Facts about the greedy mask -/

lemma greedyMask_nil_filter (name : List Char) :
    greedyMask name [] = some (name.map fun _ => false) := by
  cases name <;> rfl

lemma greedyMask_length : ∀ {name filter : List Char} {mask : List Bool},
    greedyMask name filter = some mask → mask.length = name.length := by
  intro name
  induction name with
  | nil =>
    intro filter mask h
    cases filter with
    | nil => simp [greedyMask] at h; simp [← h]
    | cons c cs => simp [greedyMask] at h
  | cons ch rest ih =>
    intro filter mask h
    cases filter with
    | nil =>
      rw [greedyMask_nil_filter] at h
      simp at h
      simp [← h]
    | cons c cs =>
      dsimp [greedyMask] at h
      split at h <;>
      · obtain ⟨mask', hm, rfl⟩ := Option.map_eq_some'.mp h
        simpa using ih hm

lemma greedyMask_none_iff : ∀ (name filter : List Char),
    (greedyMask name filter = none ↔
      ¬ (filter.map Char.toLower).Sublist (name.map Char.toLower)) := by
  intro name
  induction name with
  | nil =>
    intro filter
    cases filter with
    | nil => simp [greedyMask]
    | cons c cs =>
      constructor
      · intro _ hsub
        rw [List.map_cons, List.map_nil, List.sublist_nil] at hsub
        exact List.noConfusion hsub
      · intro _
        rfl
  | cons ch rest ih =>
    intro filter
    cases filter with
    | nil =>
      rw [greedyMask_nil_filter]
      simp [List.nil_sublist]
    | cons c cs =>
      by_cases hm : ch.toLower = c.toLower
      · have heq : greedyMask (ch :: rest) (c :: cs) =
            (greedyMask rest cs).map fun mask => true :: mask := by
          simp [greedyMask, hm]
        rw [heq]
        have hsub : (c.toLower :: cs.map Char.toLower).Sublist
              (ch.toLower :: rest.map Char.toLower) ↔
            (cs.map Char.toLower).Sublist (rest.map Char.toLower) := by
          rw [hm]
          exact List.cons_sublist_cons
        simp only [List.map_cons]
        rw [hsub, Option.map_eq_none', ih cs]
      · have heq : greedyMask (ch :: rest) (c :: cs) =
            (greedyMask rest (c :: cs)).map fun mask => false :: mask := by
          simp [greedyMask, hm]
        rw [heq]
        have hsub : (c.toLower :: cs.map Char.toLower).Sublist
              (ch.toLower :: rest.map Char.toLower) ↔
            (c.toLower :: cs.map Char.toLower).Sublist (rest.map Char.toLower) := by
          constructor
          · intro h
            rcases List.sublist_cons_iff.mp h with h | ⟨r, hr, hrsub⟩
            · exact h
            · obtain ⟨hhd, _⟩ := List.cons.injEq .. ▸ hr
              exact absurd hhd.symm hm
          · intro h
            exact h.cons _
        simp only [List.map_cons]
        rw [hsub, Option.map_eq_none', ih (c :: cs)]
        simp only [List.map_cons]

/-! ### The scan from an arbitrary state and its reference value -/

/-- The remainder of `_computeHighlightedName` from an arbitrary scanning
state: process the remaining filter characters, then finalize, with the
exhaustion early-return of lines 86-94. -/
def runHighlight (name filter : List Char) (st : SegState) : List HighlightedTextSegment :=
  match segmentLoop name filter st with
  | none => [⟨name, false⟩]
  | some st' => finalizeSegments name st'

lemma computeHighlightedName_eq_runHighlight (name filter : List Char) :
    computeHighlightedName name filter = runHighlight name filter ⟨[], false, 0, 0⟩ := rfl

/-- Reference value of the scan from an arbitrary state, phrased with the
greedy mask and run grouping of the remaining name suffix. -/
def refRun (name restName restFilter : List Char) (st : SegState) : List HighlightedTextSegment :=
  match greedyMask restName restFilter with
  | none => [⟨name, false⟩]
  | some mask =>
    st.segments ++
      mergeRun (nameSlice name st.nextOffsetToReport st.currentOffset)
        st.isProcessingMatchedSegment (groupRuns (restName.zip mask))

lemma runHighlight_nil_filter (name : List Char) (st : SegState) :
    runHighlight name [] st = finalizeSegments name st := rfl

lemma runHighlight_exhausted {name : List Char} {c : Char} {cs : List Char} {st : SegState}
    (hdrop : name.drop st.currentOffset = []) :
    runHighlight name (c :: cs) st = [⟨name, false⟩] := by
  simp only [runHighlight, segmentLoop, hdrop, scanChar]

lemma runHighlight_step_matched {name : List Char} {c ch : Char} {cs rest : List Char}
    {st : SegState}
    (hdrop : name.drop st.currentOffset = ch :: rest)
    (hm : ch.toLower = c.toLower) :
    runHighlight name (c :: cs) st = runHighlight name cs (stepState name true st) := by
  simp only [runHighlight, segmentLoop, hdrop, scanChar, hm, if_true]

lemma runHighlight_step_unmatched {name : List Char} {c ch : Char} {cs rest : List Char}
    {st : SegState}
    (hdrop : name.drop st.currentOffset = ch :: rest)
    (hm : ¬ ch.toLower = c.toLower) :
    runHighlight name (c :: cs) st = runHighlight name (c :: cs) (stepState name false st) := by
  have hdrop2 : name.drop (stepState name false st).currentOffset = rest := by
    rw [stepState_currentOffset]
    exact drop_cons_succ hdrop
  simp only [runHighlight, segmentLoop, hdrop, hdrop2, scanChar, hm, if_false]

lemma refRun_exhausted (name : List Char) (c : Char) (cs : List Char) (st : SegState) :
    refRun name [] (c :: cs) st = [⟨name, false⟩] := rfl

lemma refRun_nil_filter (name restName : List Char) (st : SegState) :
    refRun name restName [] st =
      st.segments ++
        mergeRun (nameSlice name st.nextOffsetToReport st.currentOffset)
          st.isProcessingMatchedSegment
          (if restName = [] then [] else [⟨restName, false⟩]) := by
  simp only [refRun, greedyMask_nil_filter, groupRuns_const_false]

/-- One scanning step turns the pending run and the freshly classified
character into the same grouped segments, whatever the remaining grouping
`G` is. -/
lemma step_accounting (name : List Char) {ch : Char} {rest : List Char} {b : Bool}
    {st : SegState}
    (h1 : st.nextOffsetToReport ≤ st.currentOffset)
    (h2 : st.currentOffset ≤ name.length)
    (hdrop : name.drop st.currentOffset = ch :: rest)
    (G : List HighlightedTextSegment) :
    (stepState name b st).segments ++
      mergeRun
        (nameSlice name (stepState name b st).nextOffsetToReport
          (stepState name b st).currentOffset)
        (stepState name b st).isProcessingMatchedSegment G =
    st.segments ++
      mergeRun (nameSlice name st.nextOffsetToReport st.currentOffset)
        st.isProcessingMatchedSegment (consRun ch b G) := by
  by_cases hb : st.isProcessingMatchedSegment = b
  · subst hb
    rw [stepState_same rfl]
    show st.segments ++
      mergeRun (nameSlice name st.nextOffsetToReport (st.currentOffset + 1))
        st.isProcessingMatchedSegment G = _
    rw [nameSlice_snoc h1 hdrop, mergeRun_consRun_same]
  · by_cases hp : 0 < st.currentOffset - st.nextOffsetToReport
    · rw [stepState_flip_pos hb hp]
      show (st.segments ++
          [⟨nameSlice name st.nextOffsetToReport st.currentOffset,
            st.isProcessingMatchedSegment⟩]) ++
        mergeRun (nameSlice name st.currentOffset (st.currentOffset + 1)) b G = _
      rw [nameSlice_one hdrop, mergeRun_single,
        mergeRun_consRun_flip _ ch b st.isProcessingMatchedSegment
          (nameSlice_ne_nil h1 h2 hp) hb G,
        List.append_assoc, List.singleton_append]
    · rw [stepState_flip_zero hb hp]
      have hnc : st.nextOffsetToReport = st.currentOffset := by omega
      show st.segments ++
        mergeRun (nameSlice name st.nextOffsetToReport (st.currentOffset + 1)) b G = _
      rw [hnc, nameSlice_one hdrop, mergeRun_single,
        nameSlice_stop_le (le_refl st.currentOffset), mergeRun_nil_pending]


lemma mergeRun_nil_segs (pending : List Char) (flag : Bool) (hp : pending ≠ []) :
    mergeRun pending flag [] = [⟨pending, flag⟩] := by
  simp [mergeRun, hp]

lemma mergeRun_cons_ne {seg : HighlightedTextSegment} (pending : List Char) (flag : Bool)
    (rest : List HighlightedTextSegment) (hp : pending ≠ [])
    (hf : ¬ seg.isHighlighted = flag) :
    mergeRun pending flag (seg :: rest) = ⟨pending, flag⟩ :: seg :: rest := by
  simp [mergeRun, hp, hf]

lemma mergeRun_cons_eq {seg : HighlightedTextSegment} (pending : List Char) (flag : Bool)
    (rest : List HighlightedTextSegment) (hp : pending ≠ [])
    (hf : seg.isHighlighted = flag) :
    mergeRun pending flag (seg :: rest) = ⟨pending ++ seg.textSegment, flag⟩ :: rest := by
  simp [mergeRun, hp, hf]

/-- The finalization step (lines 123-147) equals the pending run merged with
the one unmatched segment covering the rest of the name. -/
lemma finalizeSegments_eq (name : List Char) (st : SegState)
    (h1 : st.nextOffsetToReport ≤ st.currentOffset)
    (h2 : st.currentOffset ≤ name.length) :
    finalizeSegments name st =
      st.segments ++
        mergeRun (nameSlice name st.nextOffsetToReport st.currentOffset)
          st.isProcessingMatchedSegment
          (if name.drop st.currentOffset = [] then []
           else [⟨name.drop st.currentOffset, false⟩]) := by
  have hlen : (name.drop st.currentOffset).length = name.length - st.currentOffset :=
    List.length_drop _ _
  by_cases hflag : st.isProcessingMatchedSegment = true
  · by_cases hp : 0 < st.currentOffset - st.nextOffsetToReport
    · have hpend := nameSlice_ne_nil h1 h2 hp
      unfold finalizeSegments
      rw [hflag, if_pos rfl, if_pos hp]
      dsimp only
      by_cases hrest : name.drop st.currentOffset = []
      · have hcl : name.length ≤ st.currentOffset := List.drop_eq_nil_iff.mp hrest
        rw [if_pos hrest, if_neg (by omega), mergeRun_nil_segs _ _ hpend]
      · have hcl : st.currentOffset < name.length := by
          rw [List.drop_eq_nil_iff] at hrest
          omega
        rw [if_neg hrest, if_pos (by omega), nameSlice_to_length,
          mergeRun_cons_ne _ _ _ hpend (by simp), List.append_assoc]
        rfl
    · have hnc : st.nextOffsetToReport = st.currentOffset := by omega
      have hpend : nameSlice name st.nextOffsetToReport st.currentOffset = [] :=
        nameSlice_stop_le (by omega)
      unfold finalizeSegments
      rw [hflag, if_pos rfl, if_neg hp, hpend, mergeRun_nil_pending]
      dsimp only
      rw [hnc]
      by_cases hrest : name.drop st.currentOffset = []
      · have hcl := List.drop_eq_nil_iff.mp hrest
        rw [if_pos hrest, if_neg (by omega), List.append_nil]
      · have hcl : st.currentOffset < name.length := by
          rw [List.drop_eq_nil_iff] at hrest
          omega
        rw [if_neg hrest, if_pos (by omega), nameSlice_to_length]
  · have hflag' : st.isProcessingMatchedSegment = false := by
      cases hb : st.isProcessingMatchedSegment
      · rfl
      · exact absurd hb hflag
    have hred : finalizeSegments name st =
        if 0 < name.length - st.nextOffsetToReport then
          st.segments ++ [⟨nameSlice name st.nextOffsetToReport name.length, false⟩]
        else st.segments := by
      unfold finalizeSegments
      rw [hflag']
      rfl
    rw [hred, hflag']
    have hsplit : nameSlice name st.nextOffsetToReport name.length =
        nameSlice name st.nextOffsetToReport st.currentOffset ++
          name.drop st.currentOffset := by
      rw [nameSlice_to_length]
      exact drop_eq_slice_append h1
    by_cases hp : 0 < st.currentOffset - st.nextOffsetToReport
    · have hpend := nameSlice_ne_nil h1 h2 hp
      rw [if_pos (by omega), hsplit]
      by_cases hrest : name.drop st.currentOffset = []
      · rw [if_pos hrest, hrest, List.append_nil, mergeRun_nil_segs _ _ hpend]
      · rw [if_neg hrest]
        simp [mergeRun, hpend]
    · have hnc : st.nextOffsetToReport = st.currentOffset := by omega
      have hpend : nameSlice name st.nextOffsetToReport st.currentOffset = [] :=
        nameSlice_stop_le (by omega)
      rw [hpend, mergeRun_nil_pending, hnc]
      by_cases hrest : name.drop st.currentOffset = []
      · have hcl := List.drop_eq_nil_iff.mp hrest
        rw [if_pos hrest, if_neg (by omega), List.append_nil]
      · have hcl : st.currentOffset < name.length := by
          rw [List.drop_eq_nil_iff] at hrest
          omega
        rw [if_neg hrest, if_pos (by omega), nameSlice_to_length]

/-- Central simulation: from any well-formed scanning state, the remainder
of `_computeHighlightedName` computes the accumulated segments followed by
the pending run merged with the grouped greedy classification of the
remaining name suffix. -/
lemma runHighlight_eq_refRun (name : List Char) :
    ∀ (restName restFilter : List Char) (st : SegState),
      st.nextOffsetToReport ≤ st.currentOffset →
      st.currentOffset ≤ name.length →
      name.drop st.currentOffset = restName →
      runHighlight name restFilter st = refRun name restName restFilter st := by
  intro restName
  induction restName with
  | nil =>
    intro restFilter st h1 h2 hdrop
    cases restFilter with
    | nil =>
      rw [runHighlight_nil_filter, refRun_nil_filter,
        finalizeSegments_eq name st h1 h2, hdrop]
    | cons c cs =>
      rw [runHighlight_exhausted hdrop, refRun_exhausted]
  | cons ch rest ih =>
    intro restFilter st h1 h2 hdrop
    cases restFilter with
    | nil =>
      rw [runHighlight_nil_filter, refRun_nil_filter,
        finalizeSegments_eq name st h1 h2, hdrop]
    | cons c cs =>
      have hcur : st.currentOffset < name.length := lt_length_of_drop_cons hdrop
      by_cases hm : ch.toLower = c.toLower
      · rw [runHighlight_step_matched hdrop hm]
        have hdrop2 : name.drop (stepState name true st).currentOffset = rest := by
          rw [stepState_currentOffset]
          exact drop_cons_succ hdrop
        rw [ih cs (stepState name true st) (stepState_nextOffset_le name true st h1)
          (by rw [stepState_currentOffset]; omega) hdrop2]
        have hmask : greedyMask (ch :: rest) (c :: cs) =
            (greedyMask rest cs).map fun mask => true :: mask := by
          simp [greedyMask, hm]
        unfold refRun
        rw [hmask]
        cases hg : greedyMask rest cs with
        | none => rfl
        | some mask =>
          simp only [Option.map_some', List.zip_cons_cons, groupRuns]
          exact step_accounting name h1 (le_of_lt hcur) hdrop (groupRuns (rest.zip mask))
      · rw [runHighlight_step_unmatched hdrop hm]
        have hdrop2 : name.drop (stepState name false st).currentOffset = rest := by
          rw [stepState_currentOffset]
          exact drop_cons_succ hdrop
        rw [ih (c :: cs) (stepState name false st) (stepState_nextOffset_le name false st h1)
          (by rw [stepState_currentOffset]; omega) hdrop2]
        have hmask : greedyMask (ch :: rest) (c :: cs) =
            (greedyMask rest (c :: cs)).map fun mask => false :: mask := by
          simp [greedyMask, hm]
        unfold refRun
        rw [hmask]
        cases hg : greedyMask rest (c :: cs) with
        | none => rfl
        | some mask =>
          simp only [Option.map_some', List.zip_cons_cons, groupRuns]
          exact step_accounting name h1 (le_of_lt hcur) hdrop (groupRuns (rest.zip mask))

/-- Refinement: `_computeHighlightedName` returns the whole name unmatched
when the greedy match fails, and otherwise the grouped runs of the greedy
classification. -/
lemma computeHighlightedName_spec (name filter : List Char) :
    computeHighlightedName name filter =
      match greedyMask name filter with
      | none => [⟨name, false⟩]
      | some mask => groupRuns (name.zip mask) := by
  rw [computeHighlightedName_eq_runHighlight,
    runHighlight_eq_refRun name name filter ⟨[], false, 0, 0⟩ (le_refl 0) (Nat.zero_le _) rfl]
  unfold refRun
  cases greedyMask name filter with
  | none => rfl
  | some mask =>
    show [] ++ mergeRun (nameSlice name 0 0) false (groupRuns (name.zip mask)) = _
    rw [nameSlice_stop_le (le_refl 0), mergeRun_nil_pending, List.nil_append]

/-! ### Facts about the weigher -/

/-- One unfolding of the weigher loop. -/
lemma computeWeightFrom_cons (b : Bool) (s : HighlightedTextSegment)
    (rest : List HighlightedTextSegment) :
    computeWeightFrom b (s :: rest) =
      (if s.isHighlighted then
        (if s.textSegment.length ≤ 1 then s.textSegment.length
         else 1 + 2 * (s.textSegment.length - 1)) +
          (if b then 1 else 0)
      else 0) +
        computeWeightFrom
          (decide (0 < s.textSegment.length) &&
            (s.textSegment.getD (s.textSegment.length - 1) 'a' == ' ')) rest := rfl

lemma computeWeightFrom_zero_of_none : ∀ (segs : List HighlightedTextSegment),
    (∀ seg ∈ segs, seg.isHighlighted = false) → ∀ b : Bool, computeWeightFrom b segs = 0 := by
  intro segs
  induction segs with
  | nil => intro _ b; rfl
  | cons s rest ih =>
    intro hall b
    have hs : s.isHighlighted = false := hall s (by simp)
    rw [computeWeightFrom_cons, hs, if_neg Bool.false_ne_true, Nat.zero_add]
    exact ih (fun seg hmem => hall seg (List.mem_cons_of_mem _ hmem)) _

lemma computeWeightFrom_pos : ∀ (segs : List HighlightedTextSegment) (b : Bool)
    (seg : HighlightedTextSegment), seg ∈ segs → seg.isHighlighted = true →
    seg.textSegment ≠ [] → 0 < computeWeightFrom b segs := by
  intro segs
  induction segs with
  | nil => intro b seg hmem; cases hmem
  | cons s rest ih =>
    intro b seg hmem hhl hne
    rcases List.mem_cons.mp hmem with heq | hmem'
    · subst heq
      rw [computeWeightFrom_cons, hhl, if_pos rfl]
      have hlen : 0 < seg.textSegment.length := List.length_pos.mpr hne
      by_cases hl : seg.textSegment.length ≤ 1
      · rw [if_pos hl]
        omega
      · rw [if_neg hl]
        omega
    · rw [computeWeightFrom_cons]
      have hrec := ih (decide (0 < s.textSegment.length) &&
        (s.textSegment.getD (s.textSegment.length - 1) 'a' == ' ')) seg hmem' hhl hne
      omega

/-- Every highlighted segment the segmenter emits has non-empty text. -/
lemma highlighted_nonempty {name filter : List Char} {seg : HighlightedTextSegment}
    (hmem : seg ∈ computeHighlightedName name filter) (hhl : seg.isHighlighted = true) :
    seg.textSegment ≠ [] := by
  rw [computeHighlightedName_spec] at hmem
  cases hg : greedyMask name filter with
  | none =>
    rw [hg] at hmem
    simp at hmem
    rw [hmem] at hhl
    simp at hhl
  | some mask =>
    rw [hg] at hmem
    exact groupRuns_textSegment_ne_nil seg hmem

/-- The word-end update computed by the code (line 211) agrees with the
spec's "non-empty and ends in a space". -/
lemma wordEnd_flag_eq (s : HighlightedTextSegment) :
    (decide (0 < s.textSegment.length) &&
      (s.textSegment.getD (s.textSegment.length - 1) 'a' == ' ')) =
    (decide (s.textSegment ≠ []) && decide (s.textSegment.getLast? = some ' ')) := by
  cases hl : s.textSegment with
  | nil => simp
  | cons c cs =>
    have hpos : 0 < (c :: cs).length := by simp
    have hne : (c :: cs) ≠ [] := by simp
    rw [decide_eq_true hpos, decide_eq_true hne, Bool.true_and, Bool.true_and]
    have hlast : (c :: cs).getLast? = some ((c :: cs).getLast hne) :=
      List.getLast?_eq_getLast _ hne
    have hgetD : (c :: cs).getD ((c :: cs).length - 1) 'a' = (c :: cs).getLast hne := by
      rw [List.getD_eq_getElem?_getD, List.getLast_eq_getElem]
      rw [List.getElem?_eq_getElem (by simp)]
      rfl
    rw [hgetD, hlast]
    by_cases hsp : (c :: cs).getLast hne = ' '
    · rw [hsp]
      simp
    · rw [decide_eq_false (by simpa using hsp)]
      have : ((c :: cs).getLast hne == ' ') = false := by
        simpa using hsp
      rw [this]

lemma computeWeightFrom_eq_sum : ∀ (segs : List HighlightedTextSegment) (b : Bool),
    computeWeightFrom b segs =
      ((segs.zip (b :: segs.map fun s =>
        decide (s.textSegment ≠ []) && decide (s.textSegment.getLast? = some ' '))).map
        fun p => segmentScore p.1 p.2).sum := by
  intro segs
  induction segs with
  | nil => intro b; rfl
  | cons s rest ih =>
    intro b
    rw [computeWeightFrom_cons, wordEnd_flag_eq, List.map_cons, List.zip_cons_cons,
      List.map_cons, List.sum_cons, ih]
    rfl

/-! ### Facts about the lexicographic comparison -/

lemma lexLt_cons (a b : Char) (as bs : List Char) :
    lexLt (a :: as) (b :: bs) =
      if a < b then true else if b < a then false else lexLt as bs := rfl

lemma lexLt_iff_lex : ∀ (xs ys : List Char),
    (lexLt xs ys = true ↔ List.Lex (· < ·) xs ys) := by
  intro xs
  induction xs with
  | nil =>
    intro ys
    cases ys with
    | nil =>
      constructor
      · intro h
        exact absurd h (by simp [lexLt])
      · intro h
        exact absurd h (List.Lex.not_nil_right _ _)
    | cons y ys' =>
      constructor
      · intro _
        exact List.Lex.nil
      · intro _
        rfl
  | cons x xs' ih =>
    intro ys
    cases ys with
    | nil =>
      constructor
      · intro h
        exact absurd h (by simp [lexLt])
      · intro h
        exact absurd h (List.Lex.not_nil_right _ _)
    | cons y ys' =>
      rw [lexLt_cons]
      by_cases h1 : x < y
      · rw [if_pos h1]
        constructor
        · intro _
          exact List.Lex.rel h1
        · intro _
          rfl
      · rw [if_neg h1]
        by_cases h2 : y < x
        · rw [if_pos h2]
          constructor
          · intro h
            exact absurd h (by simp)
          · intro hlex
            exfalso
            cases hlex with
            | rel h => exact h1 h
            | cons h => exact lt_irrefl _ h2
        · have heq : x = y := le_antisymm (not_lt.mp h2) (not_lt.mp h1)
          subst heq
          rw [if_neg h2, ih ys']
          constructor
          · intro h
            exact List.Lex.cons h
          · intro h
            cases h with
            | rel hr => exact absurd hr (lt_irrefl x)
            | cons h => exact h

lemma lexLt_asymm : ∀ (xs ys : List Char), lexLt xs ys = true → lexLt ys xs = false := by
  intro xs
  induction xs with
  | nil =>
    intro ys h
    cases ys with
    | nil => exact absurd h (by simp [lexLt])
    | cons y ys' => rfl
  | cons x xs' ih =>
    intro ys h
    cases ys with
    | nil => exact absurd h (by simp [lexLt])
    | cons y ys' =>
      rw [lexLt_cons] at h
      rw [lexLt_cons]
      by_cases h1 : x < y
      · rw [if_neg (lt_asymm h1), if_pos h1]
      · rw [if_neg h1] at h
        by_cases h2 : y < x
        · rw [if_pos h2] at h
          exact absurd h (by simp)
        · rw [if_neg h2] at h
          rw [if_neg h2, if_neg h1]
          exact ih ys' h

lemma lexLt_connex : ∀ (xs ys : List Char), xs ≠ ys →
    lexLt xs ys = true ∨ lexLt ys xs = true := by
  intro xs
  induction xs with
  | nil =>
    intro ys hne
    cases ys with
    | nil => exact absurd rfl hne
    | cons y ys' => exact Or.inl rfl
  | cons x xs' ih =>
    intro ys hne
    cases ys with
    | nil => exact Or.inr rfl
    | cons y ys' =>
      rcases lt_trichotomy x y with h1 | h1 | h1
      · refine Or.inl ?_
        rw [lexLt_cons, if_pos h1]
      · subst h1
        have hne' : xs' ≠ ys' := by
          intro hc
          exact hne (by rw [hc])
        rcases ih ys' hne' with h | h
        · refine Or.inl ?_
          rw [lexLt_cons, if_neg (lt_irrefl x), if_neg (lt_irrefl x)]
          exact h
        · refine Or.inr ?_
          rw [lexLt_cons, if_neg (lt_irrefl x), if_neg (lt_irrefl x)]
          exact h
      · refine Or.inr ?_
        rw [lexLt_cons, if_pos h1]

/-! ### Facts about the view-model record -/

lemma computeHighlightedName_nil_filter (name : List Char) :
    computeHighlightedName name [] = if name = [] then [] else [⟨name, false⟩] := by
  rw [computeHighlightedName_spec, greedyMask_nil_filter]
  exact groupRuns_const_false name

lemma computeWeight_nil_filter (name : List Char) :
    computeWeight (computeHighlightedName name []) = 0 := by
  rw [computeHighlightedName_nil_filter]
  by_cases h : name = []
  · rw [if_pos h]
    rfl
  · rw [if_neg h]
    rfl

/-! ### The claims -/

/-- C1: Lossless partition — for every name and every filter string,
concatenating the text of the segments returned by the segmenter, in order,
reproduces the name exactly. -/
theorem C1_lossless_partition (name filter : List Char) :
    ((computeHighlightedName name filter).map fun seg => seg.textSegment).flatten = name := by
  rw [computeHighlightedName_spec]
  cases hg : greedyMask name filter with
  | none => simp
  | some mask =>
    rw [groupRuns_flatten]
    exact List.map_fst_zip name mask (le_of_eq (greedyMask_length hg).symm)

/-- C2: No-match canonical form — whenever the lowercased filter is not a
subsequence of the lowercased name, the segmenter returns exactly one
segment: the whole name, unhighlighted. -/
theorem C2_no_match_canonical_form (name filter : List Char)
    (h : ¬ (filter.map Char.toLower).Sublist (name.map Char.toLower)) :
    computeHighlightedName name filter = [⟨name, false⟩] := by
  rw [computeHighlightedName_spec, (greedyMask_none_iff name filter).mpr h]

theorem C2_no_match_canonical_form_witness :
    ¬ (([ 'b' ].map Char.toLower).Sublist ([ 'a' ].map Char.toLower)) ∧
      computeHighlightedName [ 'a' ] [ 'b' ] = [⟨[ 'a' ], false⟩] :=
  ⟨by decide, C2_no_match_canonical_form [ 'a' ] [ 'b' ] (by decide)⟩

/-- C3: Greedy subsequence property — if the segmenter's result contains a
highlighted segment, the result is exactly the run grouping of the greedy
left-to-right case-insensitive assignment of the filter to the name
(`greedyMask`, which matches each filter character, in order, to the first
not-yet-passed name character of equal lowercase and never moves the cursor
backward); in particular the lowercased filter is then a subsequence of the
lowercased name. -/
theorem C3_greedy_subsequence (name filter : List Char)
    (h : ∃ seg ∈ computeHighlightedName name filter, seg.isHighlighted = true) :
    ∃ mask, greedyMask name filter = some mask ∧
      computeHighlightedName name filter = groupRuns (name.zip mask) ∧
      (filter.map Char.toLower).Sublist (name.map Char.toLower) := by
  cases hg : greedyMask name filter with
  | none =>
    exfalso
    obtain ⟨seg, hmem, hhl⟩ := h
    rw [computeHighlightedName_spec, hg] at hmem
    simp at hmem
    rw [hmem] at hhl
    simp at hhl
  | some mask =>
    refine ⟨mask, rfl, ?_, ?_⟩
    · rw [computeHighlightedName_spec, hg]
    · by_contra hns
      have hnone := (greedyMask_none_iff name filter).mpr hns
      rw [hg] at hnone
      exact Option.noConfusion hnone

theorem C3_greedy_subsequence_witness :
    (∃ seg ∈ computeHighlightedName [ 'a', 'b' ] [ 'a' ], seg.isHighlighted = true) ∧
      ∃ mask, greedyMask [ 'a', 'b' ] [ 'a' ] = some mask ∧
        computeHighlightedName [ 'a', 'b' ] [ 'a' ] = groupRuns ([ 'a', 'b' ].zip mask) ∧
        ([ 'a' ].map Char.toLower).Sublist ([ 'a', 'b' ].map Char.toLower) :=
  ⟨by decide, C3_greedy_subsequence [ 'a', 'b' ] [ 'a' ] (by decide)⟩

/-- C4: Weigher reference definition — the weight equals the sum, over
segments in order, of: for a highlighted segment of length `L`, `L` when
`L ≤ 1` and `1 + 2*(L-1)` otherwise, plus one more when the segment starts
at a word start; a word start holds for the first segment and thereafter
exactly when the previous segment is non-empty and ends in a space. -/
theorem C4_weigher_reference_definition (segments : List HighlightedTextSegment) :
    computeWeight segments = weightSpec segments := by
  show computeWeightFrom true segments = _
  rw [computeWeightFrom_eq_sum segments true]
  rfl

/-- C5: Zero iff no match — on every segment sequence the segmenter
produces, the weigher returns 0 exactly when no segment is highlighted. -/
theorem C5_weight_zero_iff_no_match (name filter : List Char) :
    (computeWeight (computeHighlightedName name filter) = 0 ↔
      ∀ seg ∈ computeHighlightedName name filter, seg.isHighlighted = false) := by
  constructor
  · intro h0 seg hmem
    by_contra hhl
    have hhl' : seg.isHighlighted = true := by
      cases hb : seg.isHighlighted
      · exact absurd hb hhl
      · rfl
    have hne := highlighted_nonempty hmem hhl'
    have hpos := computeWeightFrom_pos (computeHighlightedName name filter) true seg hmem hhl' hne
    have h0' : computeWeightFrom true (computeHighlightedName name filter) = 0 := h0
    omega
  · intro hall
    exact computeWeightFrom_zero_of_none _ hall true

/-- C6: Comparator definition and tie-break — `Compare a b` is true exactly
when `a` has strictly larger weight, or equal weight and a name that
precedes `b`'s in case-sensitive lexicographic order; and for records with
distinct (weight, name) pairs exactly one of `Compare a b`, `Compare b a`
holds. -/
theorem C6_comparator_definition (a b : FilteredCommand) :
    (FilteredCommand.Compare a b = true ↔
      (b.weight < a.weight ∨
        (a.weight = b.weight ∧ List.Lex (· < ·) a.commandName b.commandName))) ∧
    ((a.weight, a.commandName) ≠ (b.weight, b.commandName) →
      FilteredCommand.Compare a b = !(FilteredCommand.Compare b a)) := by
  constructor
  · unfold FilteredCommand.Compare
    by_cases hw : a.weight = b.weight
    · rw [if_pos hw, lexLt_iff_lex]
      constructor
      · intro h
        exact Or.inr ⟨hw, h⟩
      · intro h
        rcases h with h | ⟨_, h⟩
        · exfalso
          omega
        · exact h
    · rw [if_neg hw]
      constructor
      · intro h
        exact Or.inl (of_decide_eq_true h)
      · intro h
        rcases h with h | ⟨heq, _⟩
        · exact decide_eq_true h
        · exact absurd heq hw
  · intro hne
    unfold FilteredCommand.Compare
    by_cases hw : a.weight = b.weight
    · rw [if_pos hw, if_pos hw.symm]
      have hnn : a.commandName ≠ b.commandName := by
        intro hc
        exact hne (by rw [hw, hc])
      rcases lexLt_connex a.commandName b.commandName hnn with h | h
      · rw [h, lexLt_asymm _ _ h]
        rfl
      · rw [h, lexLt_asymm _ _ h]
        rfl
    · rw [if_neg hw, if_neg fun hc => hw hc.symm]
      by_cases h : b.weight < a.weight
      · rw [decide_eq_true h, decide_eq_false (by omega)]
        rfl
      · have h2 : a.weight < b.weight := by omega
        rw [decide_eq_false h, decide_eq_true h2]
        rfl

theorem C6_comparator_definition_witness :
    ((FilteredCommand.mk [ 'a' ] [] [] 5).weight,
        (FilteredCommand.mk [ 'a' ] [] [] 5).commandName) ≠
      ((FilteredCommand.mk [ 'b' ] [] [] 5).weight,
        (FilteredCommand.mk [ 'b' ] [] [] 5).commandName) ∧
      FilteredCommand.Compare (FilteredCommand.mk [ 'a' ] [] [] 5)
          (FilteredCommand.mk [ 'b' ] [] [] 5) =
        !(FilteredCommand.Compare (FilteredCommand.mk [ 'b' ] [] [] 5)
          (FilteredCommand.mk [ 'a' ] [] [] 5)) :=
  ⟨by decide, (C6_comparator_definition _ _).2 (by decide)⟩

/-- C7: Derived-field consistency invariant — the record produced by the
constructor is consistent, `UpdateFilter` preserves consistency, and the
name-change notification re-establishes it: `highlightedName` always equals
the segmenter's output and `weight` the weigher's output for the current
(name, filter) pair. -/
theorem C7_derived_field_consistency :
    (∀ name, (FilteredCommand.construct name).Consistent) ∧
      (∀ (fc : FilteredCommand) (f : List Char),
        fc.Consistent → (fc.UpdateFilter f).Consistent) ∧
      (∀ (fc : FilteredCommand) (newName : List Char),
        (fc.onNameChanged newName).Consistent) := by
  refine ⟨?_, ?_, ?_⟩
  · intro name
    exact ⟨rfl, (computeWeight_nil_filter name).symm⟩
  · intro fc f hc
    unfold FilteredCommand.UpdateFilter
    by_cases hf : f ≠ fc.filter
    · rw [if_pos hf]
      exact ⟨rfl, rfl⟩
    · rw [if_neg hf]
      exact hc
  · intro fc newName
    exact ⟨rfl, rfl⟩

theorem C7_derived_field_consistency_witness :
    (FilteredCommand.construct [ 'a' ]).Consistent ∧
      ((FilteredCommand.construct [ 'a' ]).UpdateFilter [ 'x' ]).Consistent :=
  ⟨C7_derived_field_consistency.1 [ 'a' ],
    C7_derived_field_consistency.2.1 _ _ (C7_derived_field_consistency.1 [ 'a' ])⟩

/-- C8: `UpdateFilter` is a no-op on an equal filter — calling it with the
record's current filter returns the record unchanged (the recomputation
branch is not taken), so an immediately repeated call with the same string
changes nothing. -/
theorem C8_update_filter_noop (fc : FilteredCommand) (filter : List Char) :
    fc.UpdateFilter fc.filter = fc ∧
      (fc.UpdateFilter filter).UpdateFilter filter = fc.UpdateFilter filter := by
  have hnoop : ∀ g : FilteredCommand, g.UpdateFilter g.filter = g := by
    intro g
    unfold FilteredCommand.UpdateFilter
    rw [if_neg (by simp)]
  refine ⟨hnoop fc, ?_⟩
  by_cases hf : filter = fc.filter
  · rw [hf, hnoop fc]
    exact hnoop fc
  · have h1 : fc.UpdateFilter filter =
        { commandName := fc.commandName, filter := filter,
          highlightedName := computeHighlightedName fc.commandName filter,
          weight := computeWeight (computeHighlightedName fc.commandName filter) } := by
      unfold FilteredCommand.UpdateFilter
      rw [if_pos hf]
    rw [h1]
    exact hnoop _

/-- C9 counterexample: for name "close all tabs after this" and filter
"clts" the segmenter's output does not begin with ("cl", highlighted),
("ose ", unhighlighted), ("t", highlighted), ("abs ", unhighlighted): the
characters "all " sit inside the second unmatched run and the final "s" of
the filter is matched inside "tabs". -/
theorem C9_concrete_example_counterexample :
    (computeHighlightedName "close all tabs after this".toList "clts".toList).take 4 ≠
      [⟨"cl".toList, true⟩, ⟨"ose ".toList, false⟩, ⟨"t".toList, true⟩,
        ⟨"abs ".toList, false⟩] := by
  decide

/-- C9 (amended): for name "close all tabs after this" and filter "clts"
the segmenter's output begins with ("cl", highlighted),
("ose all ", unhighlighted), ("t", highlighted), ("ab", unhighlighted),
followed by further segments. -/
theorem C9_concrete_example_amended :
    (computeHighlightedName "close all tabs after this".toList "clts".toList).take 4 =
      [⟨"cl".toList, true⟩, ⟨"ose all ".toList, false⟩, ⟨"t".toList, true⟩,
        ⟨"ab".toList, false⟩] ∧
      4 < (computeHighlightedName "close all tabs after this".toList "clts".toList).length := by
  decide

/-- C10: Empty-name edge case — for every non-empty filter, segmenting the
empty name yields exactly one segment with empty text and
`isHighlighted = false`, and this is the only way the segmenter ever emits
a zero-length segment. -/
theorem C10_empty_name_edge_case (filter : List Char) (h : filter ≠ []) :
    computeHighlightedName [] filter = [⟨[], false⟩] ∧
      ∀ (name f : List Char), ∀ seg ∈ computeHighlightedName name f,
        seg.textSegment = [] → name = [] ∧ f ≠ [] := by
  constructor
  · cases filter with
    | nil => exact absurd rfl h
    | cons c cs => rfl
  · intro name f seg hmem htext
    rw [computeHighlightedName_spec] at hmem
    cases hg : greedyMask name f with
    | none =>
      rw [hg] at hmem
      simp at hmem
      constructor
      · rw [hmem] at htext
        exact htext
      · intro hf
        rw [hf, greedyMask_nil_filter] at hg
        exact Option.noConfusion hg
    | some mask =>
      rw [hg] at hmem
      exact absurd htext (groupRuns_textSegment_ne_nil seg hmem)

theorem C10_empty_name_edge_case_witness :
    ([ 'a' ] : List Char) ≠ [] ∧ computeHighlightedName [] [ 'a' ] = [⟨[], false⟩] :=
  ⟨by decide, (C10_empty_name_edge_case [ 'a' ] (by decide)).1⟩
